import Mathlib

/-!
Verification of the Resume-Analyzer text pipeline.

This file gives a shallow embedding of the two core functions of the
repository and proves the specification claims about them:

* `clean_text`  (src/preprocessing/text_cleaning.py) — lowercases its input,
  replaces every maximal run of characters outside `a`–`z` by a single space,
  collapses whitespace runs and strips the ends; non-`str` inputs are first
  coerced with `str(text or "")`.
* `calculate_similarity`  (src/model/similarity_model.py) — TF-IDF
  vectorization (scikit-learn defaults) of `[query] + corpus` followed by
  cosine similarity of the query row against each corpus row, with an
  empty-corpus fast path and an all-zeros fallback when vectorization fails
  (empty vocabulary).

Strings are modelled as `List Char` (Unicode codepoints); real-valued
scores are modelled over `ℝ`.
-/

namespace ResumeAnalyzer

/-! ### Character classes (ASCII fragments used by the pipeline) -/

/-- `a`–`z`, the characters kept by `re.sub(r"[^a-z]+", " ", text)`. -/
def isLowerAlpha (c : Char) : Bool := decide (97 ≤ c.toNat ∧ c.toNat ≤ 122)

/-- Characters matched by the regex class `\s` (ASCII part: space, tab,
newline, vertical tab, form feed, carriage return).  Only these can occur at
the point `\s` is used in the source, since the preceding substitution has
already replaced every non-`a-z` character by a plain space. -/
def isPySpace (c : Char) : Bool :=
  decide (c.toNat = 32 ∨ c.toNat = 9 ∨ c.toNat = 10 ∨ c.toNat = 11 ∨
          c.toNat = 12 ∨ c.toNat = 13)

/-- Python `str.lower`, ASCII fragment: maps `A`–`Z` to `a`–`z` and leaves
everything else unchanged.  (Python also lowercases non-ASCII letters, but
every non-ASCII character — lowercased or not — is replaced by a space in the
next step, so the two agree on the pipeline.) -/
def pyLower (c : Char) : Char :=
  if 65 ≤ c.toNat ∧ c.toNat ≤ 90 then Char.ofNat (c.toNat + 32) else c

/-! ### `re.sub` of a one-character-class `+` pattern

`subRun p r s` replaces every maximal run of characters satisfying `p` by
the single character `r`, which is exactly what
`re.sub(cls + "+", r, s)` does for a one-character replacement `r`.
The flag of `subRunAux` records whether we are inside a run whose
replacement has already been emitted. -/

def subRunAux (p : Char → Bool) (r : Char) : Bool → List Char → List Char
  | _, [] => []
  | inRun, c :: cs =>
    if p c then
      if inRun then subRunAux p r true cs else r :: subRunAux p r true cs
    else c :: subRunAux p r false cs

def subRun (p : Char → Bool) (r : Char) (s : List Char) : List Char :=
  subRunAux p r false s

/-- Remove the maximal trailing run of characters satisfying `p`. -/
def dropWhileEnd (p : Char → Bool) (s : List Char) : List Char :=
  s.foldr (fun c acc => if p c && acc.isEmpty then [] else c :: acc) []

/-- Python `str.strip()` (on strings whose whitespace is covered by
`isPySpace`): drop whitespace from both ends. -/
def pystrip (s : List Char) : List Char :=
  dropWhileEnd isPySpace (s.dropWhile isPySpace)

/-- The string-to-string core of `clean_text`:
`text.lower()`, then `re.sub(r"[^a-z]+", " ", text)`, then
`re.sub(r"\s+", " ", text).strip()`. -/
def clean_str (s : List Char) : List Char :=
  pystrip (subRun isPySpace ' ' (subRun (fun c => !isLowerAlpha c) ' ' (s.map pyLower)))

/-! ### Python values reaching the `clean_text` boundary

`clean_text` is declared for `str` but defends against arbitrary input with
`if not isinstance(text, str): text = str(text or "")`.  We model the value
shapes relevant to that boundary: strings, `None`, booleans, ints and lists.
-/

inductive PyVal where
  | pstr (s : List Char)
  | pnone
  | pbool (b : Bool)
  | pint (n : Int)
  | plist (l : List PyVal)

/-- Python truthiness for the modelled values. -/
def truthy : PyVal → Bool
  | .pstr s => !s.isEmpty
  | .pnone => false
  | .pbool b => b
  | .pint n => decide (n ≠ 0)
  | .plist l => !l.isEmpty

/-- Whether a value is a `str`. -/
def isPStr : PyVal → Bool
  | .pstr _ => true
  | _ => false

/-- Decimal rendering of an integer, as Python `str(int)` produces. -/
def intChars (n : Int) : List Char :=
  if n < 0 then Char.ofNat 45 :: Nat.toDigits 10 n.natAbs else Nat.toDigits 10 n.toNat

/-- CPython `repr` of a `str`: surround with a quote character (a single
quote, or a double quote when the text contains a single quote but no double
quote) and escape the backslash and the chosen quote.  Escapes of
non-printable characters are not modelled; no claim evaluates them. -/
def pyQuote (s : List Char) : List Char :=
  let sq : Char := Char.ofNat 39   -- single quote
  let dq : Char := Char.ofNat 34   -- double quote
  let bs : Char := Char.ofNat 92   -- backslash
  let q : Char := if sq ∈ s ∧ ¬(dq ∈ s) then dq else sq
  q :: (s.map (fun c => if c = q ∨ c = bs then [bs, c] else [c])).flatten ++ [q]

/-- Comma-space separated concatenation, as inside a Python list `repr`. -/
def joinCommaSep : List (List Char) → List Char
  | [] => []
  | [x] => x
  | x :: y :: rest => x ++ Char.ofNat 44 :: ' ' :: joinCommaSep (y :: rest)

/-- CPython `repr` for the modelled values. -/
def pyRepr : PyVal → List Char
  | .pstr s => pyQuote s
  | .pnone => "None".data
  | .pbool true => "True".data
  | .pbool false => "False".data
  | .pint n => intChars n
  | .plist l =>
    Char.ofNat 91 :: joinCommaSep (l.attach.map (fun x => pyRepr x.1)) ++ [Char.ofNat 93]
decreasing_by simp_wf; have := List.sizeOf_lt_of_mem x.2; omega

/-- CPython `str()` for the modelled values: the identity on strings and
`repr` on everything else (which is what `str` gives for `None`, booleans,
ints and lists of such values). -/
def pyStr : PyVal → List Char
  | .pstr s => s
  | v => pyRepr v

/-- `clean_text` (src/preprocessing/text_cleaning.py): on a non-`str` input
the source first runs `text = str(text or "")`, i.e. the empty string for a
falsy value and `str(text)` for a truthy one; then the string pipeline
`clean_str` runs. -/
def clean_text (v : PyVal) : List Char :=
  match v with
  | .pstr s => clean_str s
  | v => clean_str (if truthy v then pyStr v else [])

/-! ### The canonical-output predicate

A cleaned string consists of lowercase ASCII letters and single interior
spaces, with no leading or trailing space. -/

/-- No two adjacent characters both satisfy `p`. -/
def noAdjSat (p : Char → Bool) : List Char → Bool
  | c1 :: c2 :: rest => !(p c1 && p c2) && noAdjSat p (c2 :: rest)
  | _ => true

/-- The first character, if any, does not satisfy `p`. -/
def headNotSat (p : Char → Bool) : List Char → Bool
  | [] => true
  | c :: _ => !(p c)

/-- The last character, if any, does not satisfy `p`. -/
def noTrailSat (p : Char → Bool) : List Char → Bool
  | [] => true
  | [c] => !(p c)
  | _ :: rest => noTrailSat p rest

/-- Is the character exactly the space character? -/
def spaceB (c : Char) : Bool := c == ' '

/-- Canonical token strings: only `a`–`z` and the space character, no
leading space, no trailing space, no two spaces in a row. -/
def canonicalB (s : List Char) : Bool :=
  s.all (fun c => isLowerAlpha c || spaceB c) &&
  headNotSat spaceB s && noTrailSat spaceB s && noAdjSat spaceB s

/-! ### The similarity scorer (src/model/similarity_model.py)

`calculate_similarity(user_skill, job_skills)` builds
`docs = [str(user_skill)] + [str(s) for s in job_skills]` (the inputs the
claims quantify over are strings, on which `str` is the identity), runs
`TfidfVectorizer().fit_transform(docs)` with scikit-learn defaults and
returns `cosine_similarity(vectors[0:1], vectors[1:])[0]`; an empty
`job_skills` short-circuits to `[]`, and any vectorization failure (an empty
vocabulary) is caught and turned into `len(job_skills)` zeros. -/

/-- Characters matched by the regex class `\w` (ASCII fragment: letters,
digits and underscore), used by the vectorizer's default
`token_pattern=r"(?u)\b\w\w+\b"`. -/
def isWordChar (c : Char) : Bool :=
  decide ((48 ≤ c.toNat ∧ c.toNat ≤ 57) ∨ (65 ≤ c.toNat ∧ c.toNat ≤ 90) ∨
          (97 ≤ c.toNat ∧ c.toNat ≤ 122) ∨ c.toNat = 95)

/-- Maximal runs of characters satisfying `p` (the accumulator holds the
current run, reversed). -/
def runsAux (p : Char → Bool) : List Char → List Char → List (List Char)
  | cur, [] => if cur.isEmpty then [] else [cur.reverse]
  | cur, c :: cs =>
    if p c then runsAux p (c :: cur) cs
    else if cur.isEmpty then runsAux p [] cs
    else cur.reverse :: runsAux p [] cs

/-- The tokens `TfidfVectorizer` extracts from one document: lowercase the
text, then take every maximal `\w`-run of length at least two
(`token_pattern=r"(?u)\b\w\w+\b"` with `lowercase=True`). -/
def sklearnTokens (s : List Char) : List (List Char) :=
  (runsAux isWordChar [] (s.map pyLower)).filter (fun t => decide (2 ≤ t.length))

/-- Tokens in the sense of the specification's glossary: the maximal runs of
lowercase letters of a normalized string. -/
def specTokens (s : List Char) : List (List Char) :=
  runsAux isLowerAlpha [] s

/-- The fitted vocabulary: every token occurring in any document.
(scikit-learn additionally sorts the vocabulary alphabetically; the scores
are sums over the whole vocabulary and do not depend on its order.) -/
def vocabulary (docs : List (List Char)) : Finset (List Char) :=
  (docs.flatMap sklearnTokens).toFinset

/-- Document frequency: in how many documents the token occurs. -/
def dfCount (docs : List (List Char)) (t : List Char) : ℕ :=
  (docs.filter (fun d => decide (t ∈ sklearnTokens d))).length

noncomputable section

/-- Smoothed inverse document frequency, scikit-learn's
`smooth_idf=True` formula: `ln((1 + n) / (1 + df)) + 1`. -/
def idf (docs : List (List Char)) (t : List Char) : ℝ :=
  Real.log ((1 + (docs.length : ℝ)) / (1 + (dfCount docs t : ℝ))) + 1

/-- Raw TF-IDF weight of token `t` for document `d`: term count times
inverse document frequency (`sublinear_tf=False`, `binary=False`). -/
def tfidf (docs : List (List Char)) (d : List Char) (t : List Char) : ℝ :=
  ((sklearnTokens d).count t : ℝ) * idf docs t

/-- Dot product of two vocabulary-indexed vectors. -/
def dotProd (V : Finset (List Char)) (u v : List Char → ℝ) : ℝ :=
  ∑ t in V, u t * v t

/-- Euclidean norm of a vocabulary-indexed vector. -/
def l2norm (V : Finset (List Char)) (u : List Char → ℝ) : ℝ :=
  Real.sqrt (∑ t in V, (u t) ^ 2)

/-- `sklearn.preprocessing.normalize` of one row: divide by the Euclidean
norm; a zero row stays zero (in Lean, division by zero gives zero). -/
def normalizeRow (V : Finset (List Char)) (u : List Char → ℝ) : List Char → ℝ :=
  fun t => u t / l2norm V u

/-- One row of `TfidfVectorizer().fit_transform(docs)`: raw TF-IDF weights,
normalized to unit Euclidean length (`norm="l2"`). -/
def tfidfRow (docs : List (List Char)) (d : List Char) : List Char → ℝ :=
  normalizeRow (vocabulary docs) (tfidf docs d)

/-- `sklearn.metrics.pairwise.cosine_similarity` on two rows: normalize
each row, then take the dot product. -/
def cosineSimilarity (V : Finset (List Char)) (u v : List Char → ℝ) : ℝ :=
  dotProd V (normalizeRow V u) (normalizeRow V v)

/-- `calculate_similarity` (src/model/similarity_model.py). The only
failure `TfidfVectorizer().fit_transform` can raise on string input is the
empty-vocabulary `ValueError`; the source's `except Exception` turns it
into `np.zeros(len(job_skills))`. -/
def calculate_similarity (user_skill : List Char) (job_skills : List (List Char)) :
    List ℝ :=
  if job_skills = [] then []
  else
    let docs := user_skill :: job_skills
    if vocabulary docs = ∅ then List.replicate job_skills.length 0
    else job_skills.map (fun d =>
      cosineSimilarity (vocabulary docs) (tfidfRow docs user_skill) (tfidfRow docs d))

end

/-! ## Lemmas about the text normalizer -/

lemma char_eq_of_toNat_eq {c d : Char} (h : c.toNat = d.toNat) : c = d := by
  rw [← Char.ofNat_toNat c, ← Char.ofNat_toNat d, h]

lemma or_cases {a b : Bool} (h : (a || b) = true) : a = true ∨ b = true := by
  simpa using h

lemma and_parts {a b : Bool} (h : (a && b) = true) : a = true ∧ b = true := by
  simpa using h

lemma isLowerAlpha_iff {c : Char} :
    isLowerAlpha c = true ↔ (97 ≤ c.toNat ∧ c.toNat ≤ 122) := by
  simp [isLowerAlpha]

lemma isPySpace_iff {c : Char} :
    isPySpace c = true ↔
      (c.toNat = 32 ∨ c.toNat = 9 ∨ c.toNat = 10 ∨ c.toNat = 11 ∨
       c.toNat = 12 ∨ c.toNat = 13) := by
  simp [isPySpace]

lemma spaceB_iff {c : Char} : spaceB c = true ↔ c.toNat = 32 := by
  constructor
  · intro h
    have hc : c = ' ' := by simpa [spaceB] using h
    subst hc; rfl
  · intro h
    have hc : c = ' ' := char_eq_of_toNat_eq h
    subst hc; rfl

lemma spaceB_eq_space {c : Char} (h : spaceB c = true) : c = ' ' := by
  simpa [spaceB] using h

/-- `pyLower` fixes canonical characters (lowercase letters and the space). -/
lemma pyLower_fix {c : Char} (h : (isLowerAlpha c || spaceB c) = true) :
    pyLower c = c := by
  have hn : ¬(65 ≤ c.toNat ∧ c.toNat ≤ 90) := by
    rcases or_cases h with h1 | h2
    · rw [isLowerAlpha_iff] at h1; omega
    · rw [spaceB_iff] at h2; omega
  simp [pyLower, hn]

/-- Characters on which the letter view and the space views coincide. -/
lemma bridge_nonalpha {c : Char} (h : (isLowerAlpha c || spaceB c) = true) :
    (!isLowerAlpha c) = spaceB c := by
  rcases or_cases h with h1 | h2
  · rw [h1]
    rw [isLowerAlpha_iff] at h1
    have hs : ¬(spaceB c = true) := by rw [spaceB_iff]; omega
    simp at hs
    rw [hs]
    rfl
  · rw [h2]
    have ha : ¬(isLowerAlpha c = true) := by
      rw [spaceB_iff] at h2; rw [isLowerAlpha_iff]; omega
    simp at ha
    rw [ha]
    rfl

lemma bridge_pyspace {c : Char} (h : (isLowerAlpha c || spaceB c) = true) :
    isPySpace c = spaceB c := by
  rcases or_cases h with h1 | h2
  · rw [isLowerAlpha_iff] at h1
    have hs : ¬(spaceB c = true) := by rw [spaceB_iff]; omega
    have hp : ¬(isPySpace c = true) := by rw [isPySpace_iff]; omega
    simp at hs hp
    rw [hs, hp]
  · rw [h2]
    rw [spaceB_iff] at h2
    rw [isPySpace_iff]
    omega

/-- Every character of a `subRunAux` output is a non-`p` character of the
input or the replacement character. -/
lemma subRunAux_subset {p : Char → Bool} {r : Char} :
    ∀ (s : List Char) (flag : Bool) (c : Char),
      c ∈ subRunAux p r flag s → (c ∈ s ∧ p c = false) ∨ c = r := by
  intro s
  induction s with
  | nil => intro flag c hc; simp [subRunAux] at hc
  | cons a as ih =>
    intro flag c hc
    by_cases hpa : p a = true
    · cases flag with
      | true =>
        rw [subRunAux, if_pos hpa, if_pos rfl] at hc
        rcases ih true c hc with ⟨h1, h2⟩ | h
        · exact Or.inl ⟨List.mem_cons_of_mem _ h1, h2⟩
        · exact Or.inr h
      | false =>
        rw [subRunAux, if_pos hpa, if_neg (by simp)] at hc
        rcases List.mem_cons.mp hc with h | h
        · exact Or.inr h
        · rcases ih true c h with ⟨h1, h2⟩ | h2
          · exact Or.inl ⟨List.mem_cons_of_mem _ h1, h2⟩
          · exact Or.inr h2
    · rw [subRunAux, if_neg hpa] at hc
      rcases List.mem_cons.mp hc with h | h
      · subst h
        exact Or.inl ⟨List.mem_cons_self _ _, Bool.eq_false_iff.mpr hpa⟩
      · rcases ih false c h with ⟨h1, h2⟩ | h2
        · exact Or.inl ⟨List.mem_cons_of_mem _ h1, h2⟩
        · exact Or.inr h2

/-- In the run-continuation state the next emitted character is a non-`p`
character. -/
lemma subRunAux_head_true {p : Char → Bool} {r : Char} :
    ∀ (s : List Char) (c : Char),
      (subRunAux p r true s).head? = some c → p c = false := by
  intro s
  induction s with
  | nil => intro c hc; simp [subRunAux] at hc
  | cons a as ih =>
    intro c hc
    by_cases hpa : p a = true
    · rw [subRunAux, if_pos hpa, if_pos rfl] at hc
      exact ih c hc
    · rw [subRunAux, if_neg hpa] at hc
      simp at hc
      subst hc
      exact Bool.eq_false_iff.mpr hpa

lemma noAdjSat_tail {p : Char → Bool} {a : Char} {l : List Char}
    (h : noAdjSat p (a :: l) = true) : noAdjSat p l = true := by
  cases l with
  | nil => rfl
  | cons b bs =>
    rw [noAdjSat] at h
    exact (and_parts h).2

lemma noAdjSat_pair {p : Char → Bool} {a b : Char} {l : List Char}
    (h : noAdjSat p (a :: b :: l) = true) : (p a && p b) = false := by
  rw [noAdjSat] at h
  have h1 := (and_parts h).1
  rcases hab : (p a && p b) with _ | _
  · rfl
  · rw [hab] at h1
    simp at h1

lemma noAdjSat_cons_of {p : Char → Bool} {a : Char} {l : List Char}
    (h : noAdjSat p l = true)
    (hh : ∀ b, l.head? = some b → (p a && p b) = false) :
    noAdjSat p (a :: l) = true := by
  cases l with
  | nil => rfl
  | cons b bs =>
    rw [noAdjSat, Bool.and_eq_true]
    refine ⟨?_, h⟩
    have := hh b rfl
    simp [this]

/-- The output of `subRunAux` never carries two adjacent `p`-characters:
each maximal input run contributes exactly one replacement character. -/
lemma subRunAux_noAdj {p : Char → Bool} {r : Char} :
    ∀ (s : List Char) (flag : Bool), noAdjSat p (subRunAux p r flag s) = true := by
  intro s
  induction s with
  | nil => intro flag; rfl
  | cons a as ih =>
    intro flag
    by_cases hpa : p a = true
    · cases flag with
      | true => rw [subRunAux, if_pos hpa, if_pos rfl]; exact ih true
      | false =>
        rw [subRunAux, if_pos hpa, if_neg (by simp)]
        refine noAdjSat_cons_of (ih true) ?_
        intro b hb
        rw [subRunAux_head_true as b hb]
        simp
    · rw [subRunAux, if_neg hpa]
      refine noAdjSat_cons_of (ih false) ?_
      intro b _
      rw [Bool.eq_false_iff.mpr hpa]
      simp

lemma headNotSat_iff {p : Char → Bool} {l : List Char} :
    headNotSat p l = true ↔ ∀ c, l.head? = some c → p c = false := by
  cases l with
  | nil => simp [headNotSat]
  | cons a as =>
    rw [headNotSat]
    simp only [List.head?_cons]
    constructor
    · intro h c hc
      cases hc
      simpa using h
    · intro h
      have := h a rfl
      simp [this]

/-- Unfolding equation for `dropWhileEnd`. -/
lemma dropWhileEnd_cons {p : Char → Bool} {a : Char} {l : List Char} :
    dropWhileEnd p (a :: l) =
      if p a && (dropWhileEnd p l).isEmpty then [] else a :: dropWhileEnd p l := rfl

lemma mem_dropWhileEnd {p : Char → Bool} {c : Char} :
    ∀ {l : List Char}, c ∈ dropWhileEnd p l → c ∈ l := by
  intro l
  induction l with
  | nil => intro h; simp [dropWhileEnd] at h
  | cons a as ih =>
    intro h
    rw [dropWhileEnd_cons] at h
    by_cases hg : (p a && (dropWhileEnd p as).isEmpty) = true
    · rw [if_pos hg] at h; simp at h
    · rw [if_neg hg] at h
      rcases List.mem_cons.mp h with h | h
      · exact h ▸ List.mem_cons_self a as
      · exact List.mem_cons_of_mem _ (ih h)

lemma head?_dropWhileEnd {p : Char → Bool} {c : Char} {l : List Char}
    (h : (dropWhileEnd p l).head? = some c) : l.head? = some c := by
  cases l with
  | nil => simp [dropWhileEnd] at h
  | cons a as =>
    rw [dropWhileEnd_cons] at h
    by_cases hg : (p a && (dropWhileEnd p as).isEmpty) = true
    · rw [if_pos hg] at h; simp at h
    · rw [if_neg hg] at h
      simpa using h

lemma noAdjSat_dropWhile {p q : Char → Bool} :
    ∀ {l : List Char}, noAdjSat p l = true → noAdjSat p (l.dropWhile q) = true := by
  intro l
  induction l with
  | nil => intro h; exact h
  | cons a as ih =>
    intro h
    rw [List.dropWhile_cons]
    by_cases hq : q a = true
    · rw [if_pos hq]
      exact ih (noAdjSat_tail h)
    · rw [if_neg hq]
      exact h

lemma noAdjSat_dropWhileEnd {p q : Char → Bool} :
    ∀ {l : List Char}, noAdjSat p l = true → noAdjSat p (dropWhileEnd q l) = true := by
  intro l
  induction l with
  | nil => intro h; exact h
  | cons a as ih =>
    intro h
    rw [dropWhileEnd_cons]
    by_cases hg : (q a && (dropWhileEnd q as).isEmpty) = true
    · rw [if_pos hg]; rfl
    · rw [if_neg hg]
      refine noAdjSat_cons_of (ih (noAdjSat_tail h)) ?_
      intro b hb
      have hbas : as.head? = some b := head?_dropWhileEnd hb
      cases as with
      | nil => simp at hbas
      | cons x xs =>
        simp at hbas
        subst hbas
        exact noAdjSat_pair h

/-- `dropWhileEnd p` leaves no trailing `p`-character. -/
lemma noTrailSat_dropWhileEnd {p : Char → Bool} :
    ∀ (l : List Char), noTrailSat p (dropWhileEnd p l) = true := by
  intro l
  induction l with
  | nil => rfl
  | cons a as ih =>
    rw [dropWhileEnd_cons]
    by_cases hg : (p a && (dropWhileEnd p as).isEmpty) = true
    · rw [if_pos hg]; rfl
    · rw [if_neg hg]
      rcases he : dropWhileEnd p as with _ | ⟨x, xs⟩
      · have hpa : p a = false := by
          rw [he] at hg
          simpa using hg
        show (!(p a)) = true
        rw [hpa]
        rfl
      · rw [he] at ih
        show noTrailSat p (x :: xs) = true
        exact ih

/-- Pointwise-equal predicates give the same adjacency check. -/
lemma noAdjSat_congr {p q : Char → Bool} :
    ∀ {l : List Char}, (∀ c ∈ l, p c = q c) → noAdjSat p l = noAdjSat q l := by
  intro l
  induction l with
  | nil => intro _; rfl
  | cons a as ih =>
    intro h
    cases as with
    | nil => rfl
    | cons b bs =>
      rw [noAdjSat, noAdjSat]
      rw [h a (List.mem_cons_self _ _), h b (List.mem_cons_of_mem _ (List.mem_cons_self _ _))]
      rw [ih (fun c hc => h c (List.mem_cons_of_mem _ hc))]

lemma noTrailSat_congr {p q : Char → Bool} :
    ∀ {l : List Char}, (∀ c ∈ l, p c = q c) → noTrailSat p l = noTrailSat q l := by
  intro l
  induction l with
  | nil => intro _; rfl
  | cons a as ih =>
    intro h
    cases as with
    | nil =>
      show (!(p a)) = (!(q a))
      rw [h a (List.mem_cons_self _ _)]
    | cons b bs =>
      show noTrailSat p (b :: bs) = noTrailSat q (b :: bs)
      exact ih (fun c hc => h c (List.mem_cons_of_mem _ hc))

lemma headNotSat_congr {p q : Char → Bool} {l : List Char}
    (h : ∀ c ∈ l, p c = q c) : headNotSat p l = headNotSat q l := by
  cases l with
  | nil => rfl
  | cons a as => rw [headNotSat, headNotSat, h a (List.mem_cons_self _ _)]

/-! ### The cleaned string is canonical -/

/-- All characters of the output of the first substitution are lowercase
letters or spaces. -/
lemma subRun_alpha_chars {s : List Char} {c : Char}
    (hc : c ∈ subRun (fun c => !isLowerAlpha c) ' ' s) :
    (isLowerAlpha c || spaceB c) = true := by
  rcases subRunAux_subset s false c hc with ⟨_, h2⟩ | h
  · have : isLowerAlpha c = true := by simpa using h2
    simp [this]
  · subst h
    simp [spaceB]

lemma subRun_chars_preserved {p : Char → Bool} {s : List Char} {c : Char}
    (hall : ∀ c ∈ s, (isLowerAlpha c || spaceB c) = true)
    (hc : c ∈ subRun p ' ' s) :
    (isLowerAlpha c || spaceB c) = true := by
  rcases subRunAux_subset s false c hc with ⟨h1, _⟩ | h
  · exact hall c h1
  · subst h
    simp [spaceB]

/-- The full pipeline produces a canonical token string. -/
lemma clean_str_canonical (s : List Char) : canonicalB (clean_str s) = true := by
  rw [clean_str]
  set s2 := subRun (fun c => !isLowerAlpha c) ' ' (s.map pyLower) with hs2
  set s3 := subRun isPySpace ' ' s2 with hs3
  have hall3 : ∀ c ∈ s3, (isLowerAlpha c || spaceB c) = true := by
    intro c hc
    exact subRun_chars_preserved (fun d hd => subRun_alpha_chars hd) hc
  have hall4 : ∀ c ∈ pystrip s3, (isLowerAlpha c || spaceB c) = true := by
    intro c hc
    rw [pystrip] at hc
    have h1 := mem_dropWhileEnd hc
    have h2 := List.dropWhile_sublist (l := s3) isPySpace |>.mem h1
    exact hall3 c h2
  have hadj3 : noAdjSat isPySpace s3 = true := subRunAux_noAdj s2 false
  have hadj4 : noAdjSat isPySpace (pystrip s3) = true := by
    rw [pystrip]
    exact noAdjSat_dropWhileEnd (noAdjSat_dropWhile hadj3)
  have hhead4 : headNotSat isPySpace (pystrip s3) = true := by
    rw [headNotSat_iff]
    intro c hc
    rw [pystrip] at hc
    have h1 := head?_dropWhileEnd hc
    have h2 := List.head?_dropWhile_not isPySpace s3
    rw [h1] at h2
    exact h2
  have htrail4 : noTrailSat isPySpace (pystrip s3) = true := by
    rw [pystrip]
    exact noTrailSat_dropWhileEnd _
  rw [canonicalB]
  rw [Bool.and_eq_true, Bool.and_eq_true, Bool.and_eq_true]
  refine ⟨⟨⟨?_, ?_⟩, ?_⟩, ?_⟩
  · rw [List.all_eq_true]
    intro c hc
    have := hall4 c hc
    simpa using this
  · rw [← headNotSat_congr (fun c hc => bridge_pyspace (hall4 c hc))]
    exact hhead4
  · rw [← noTrailSat_congr (fun c hc => bridge_pyspace (hall4 c hc))]
    exact htrail4
  · rw [← noAdjSat_congr (fun c hc => bridge_pyspace (hall4 c hc))]
    exact hadj4

/-! ### Canonical strings are fixed points of the pipeline -/

lemma map_pyLower_id {s : List Char}
    (h : ∀ c ∈ s, (isLowerAlpha c || spaceB c) = true) : s.map pyLower = s := by
  induction s with
  | nil => rfl
  | cons a as ih =>
    rw [List.map_cons, pyLower_fix (h a (List.mem_cons_self _ _)),
        ih (fun c hc => h c (List.mem_cons_of_mem _ hc))]

lemma headNotSat_of_noAdj {p : Char → Bool} {a : Char} {as : List Char}
    (hpa : p a = true) (h : noAdjSat p (a :: as) = true) :
    headNotSat p as = true := by
  cases as with
  | nil => rfl
  | cons b bs =>
    have hab := noAdjSat_pair h
    rw [hpa] at hab
    simp at hab
    rw [headNotSat, hab]
    rfl

lemma subRunAux_id {p : Char → Bool} {r : Char} :
    ∀ (s : List Char),
      (∀ c ∈ s, p c = true → c = r) → noAdjSat p s = true →
      subRunAux p r false s = s ∧
      (headNotSat p s = true → subRunAux p r true s = s) := by
  intro s
  induction s with
  | nil => intro _ _; exact ⟨rfl, fun _ => rfl⟩
  | cons a as ih =>
    intro hr hadj
    have ih' := ih (fun c hc hpc => hr c (List.mem_cons_of_mem _ hc) hpc)
      (noAdjSat_tail hadj)
    by_cases hpa : p a = true
    · have har : a = r := hr a (List.mem_cons_self _ _) hpa
      have hhead : headNotSat p as = true := headNotSat_of_noAdj hpa hadj
      constructor
      · rw [subRunAux, if_pos hpa, if_neg (by simp)]
        rw [ih'.2 hhead, har]
      · intro hh
        rw [headNotSat, hpa] at hh
        simp at hh
    · constructor
      · rw [subRunAux, if_neg hpa, ih'.1]
      · intro _
        rw [subRunAux, if_neg hpa, ih'.1]

lemma subRun_id {p : Char → Bool} {r : Char} {s : List Char}
    (hr : ∀ c ∈ s, p c = true → c = r) (hadj : noAdjSat p s = true) :
    subRun p r s = s := by
  rw [subRun]
  exact (subRunAux_id s hr hadj).1

lemma dropWhile_id {p : Char → Bool} {s : List Char}
    (h : headNotSat p s = true) : s.dropWhile p = s := by
  cases s with
  | nil => rfl
  | cons a as =>
    rw [headNotSat] at h
    have hpa : p a = false := by simpa using h
    rw [List.dropWhile_cons_of_neg (by simp [hpa])]

lemma dropWhileEnd_id {p : Char → Bool} :
    ∀ {s : List Char}, noTrailSat p s = true → dropWhileEnd p s = s := by
  intro s
  induction s with
  | nil => intro _; rfl
  | cons a as ih =>
    intro h
    cases as with
    | nil =>
      have h' : (!(p a)) = true := h
      have hpa : p a = false := by simpa using h'
      rw [dropWhileEnd_cons, if_neg (by simp [hpa])]
      rfl
    | cons b bs =>
      have h' : noTrailSat p (b :: bs) = true := h
      rw [dropWhileEnd_cons, ih h', if_neg (by simp)]

/-- A canonical token string passes through the whole pipeline unchanged. -/
lemma clean_str_fix {s : List Char} (h : canonicalB s = true) :
    clean_str s = s := by
  rw [canonicalB] at h
  have h1 := and_parts h
  have hadj := h1.2
  have h2 := and_parts h1.1
  have htrail := h2.2
  have h3 := and_parts h2.1
  have hhead := h3.2
  have hall : ∀ c ∈ s, (isLowerAlpha c || spaceB c) = true := by
    intro c hc
    exact List.all_eq_true.mp h3.1 c hc
  rw [clean_str, map_pyLower_id hall]
  have hr1 : ∀ c ∈ s, (fun c => !isLowerAlpha c) c = true → c = ' ' := by
    intro c hc hpc
    have hpc' : (!isLowerAlpha c) = true := hpc
    rw [bridge_nonalpha (hall c hc)] at hpc'
    exact spaceB_eq_space hpc'
  have hadj1 : noAdjSat (fun c => !isLowerAlpha c) s = true := by
    rw [noAdjSat_congr (fun c hc => bridge_nonalpha (hall c hc))]
    exact hadj
  rw [subRun_id hr1 hadj1]
  have hr2 : ∀ c ∈ s, isPySpace c = true → c = ' ' := by
    intro c hc hpc
    rw [bridge_pyspace (hall c hc)] at hpc
    exact spaceB_eq_space hpc
  have hadj2 : noAdjSat isPySpace s = true := by
    rw [noAdjSat_congr (fun c hc => bridge_pyspace (hall c hc))]
    exact hadj
  rw [subRun_id hr2 hadj2, pystrip]
  have hheadPy : headNotSat isPySpace s = true := by
    rw [headNotSat_congr (fun c hc => bridge_pyspace (hall c hc))]
    exact hhead
  have htrailPy : noTrailSat isPySpace s = true := by
    rw [noTrailSat_congr (fun c hc => bridge_pyspace (hall c hc))]
    exact htrail
  rw [dropWhile_id hheadPy, dropWhileEnd_id htrailPy]

/-! ## Claims about the text normalizer -/

/-- **C3.** For every raw input — strings (empty, punctuation-only,
mixed-case, unicode noise) as well as non-string values such as `None`,
numbers, booleans and lists — `clean_text` is total (never raises) and
returns a string containing only lowercase ASCII letters `a`–`z` and single
interior spaces, with no leading or trailing space (the empty string when no
letters remain). -/
theorem clean_text_always_canonical (v : PyVal) :
    canonicalB (clean_text v) = true := by
  cases v with
  | pstr s => exact clean_str_canonical s
  | pnone => exact clean_str_canonical _
  | pbool b => exact clean_str_canonical _
  | pint n => exact clean_str_canonical _
  | plist l => exact clean_str_canonical _

/-- **C4.** Normalization is idempotent: cleaning an already-cleaned string
yields the same string (the code implements the fixed
no-stop-word-removal policy). -/
theorem clean_text_idempotent (s : List Char) :
    clean_text (.pstr (clean_text (.pstr s))) = clean_text (.pstr s) := by
  show clean_str (clean_str s) = clean_str s
  exact clean_str_fix (clean_str_canonical s)

/-- **C7, counterexample.** The claim says that (with stop-word removal
enabled) normalizing text consisting only of English stop words yields the
empty string.  The code's only normalizer, `clean_text`, has no stop-word
mode at all: it maps `"the and is"` to itself, which is not empty. -/
theorem clean_text_keeps_stop_words :
    clean_text (.pstr ("the and is").data) = ("the and is").data ∧
      ("the and is").data ≠ ([] : List Char) := by
  constructor
  · decide
  · decide

/-- **C7, amended.** `clean_text` implements only the
`removeStopWords = disabled` variant: no token is ever removed, and any
canonical token string — in particular one consisting solely of stop words —
is returned unchanged. -/
theorem clean_text_no_stop_word_removal (s : List Char)
    (h : canonicalB s = true) : clean_text (.pstr s) = s := clean_str_fix h

theorem clean_text_no_stop_word_removal_witness :
    canonicalB ("the and is").data = true ∧
      clean_text (.pstr ("the and is").data) = ("the and is").data :=
  ⟨by decide, clean_text_no_stop_word_removal ("the and is").data (by decide)⟩

/-- **C10.** On non-string input `clean_text` distinguishes falsy from
truthy values (`text = str(text or "")`): every falsy non-string value
(`None`, `0`, `False`, `[]`) is coerced to the empty string, while a truthy
non-string value is rendered with `str()` and then normalized — in
particular `clean_text True = "true"`. -/
theorem clean_text_nonstring_cases :
    (∀ v : PyVal, isPStr v = false → truthy v = false → clean_text v = []) ∧
    (∀ v : PyVal, isPStr v = false → truthy v = true →
      clean_text v = clean_str (pyStr v)) ∧
    clean_text (.pbool true) = ("true").data := by
  refine ⟨?_, ?_, ?_⟩
  · intro v hstr hfal
    cases v with
    | pstr s => simp [isPStr] at hstr
    | pnone =>
      show clean_str (if truthy PyVal.pnone then pyStr PyVal.pnone else []) = []
      rw [hfal]; rfl
    | pbool b =>
      show clean_str (if truthy (PyVal.pbool b) then pyStr (PyVal.pbool b) else []) = []
      rw [hfal]; rfl
    | pint n =>
      show clean_str (if truthy (PyVal.pint n) then pyStr (PyVal.pint n) else []) = []
      rw [hfal]; rfl
    | plist l =>
      show clean_str (if truthy (PyVal.plist l) then pyStr (PyVal.plist l) else []) = []
      rw [hfal]; rfl
  · intro v hstr htru
    cases v with
    | pstr s => simp [isPStr] at hstr
    | pnone =>
      show clean_str (if truthy PyVal.pnone then pyStr PyVal.pnone else []) =
        clean_str (pyStr PyVal.pnone)
      rw [htru]; rfl
    | pbool b =>
      show clean_str (if truthy (PyVal.pbool b) then pyStr (PyVal.pbool b) else []) =
        clean_str (pyStr (PyVal.pbool b))
      rw [htru]; rfl
    | pint n =>
      show clean_str (if truthy (PyVal.pint n) then pyStr (PyVal.pint n) else []) =
        clean_str (pyStr (PyVal.pint n))
      rw [htru]; rfl
    | plist l =>
      show clean_str (if truthy (PyVal.plist l) then pyStr (PyVal.plist l) else []) =
        clean_str (pyStr (PyVal.plist l))
      rw [htru]; rfl
  · have h1 : pyStr (PyVal.pbool true) = ("True").data := by
      show pyRepr (PyVal.pbool true) = ("True").data
      rw [pyRepr]
    show clean_str (pyStr (PyVal.pbool true)) = ("true").data
    rw [h1]
    decide

theorem clean_text_nonstring_cases_witness :
    clean_text PyVal.pnone = [] ∧ clean_text (.pint 0) = [] ∧
      clean_text (.pbool false) = [] ∧ clean_text (.plist []) = [] ∧
      clean_text (.pbool true) = clean_str (pyStr (.pbool true)) ∧
      clean_text (.pbool true) = ("true").data :=
  ⟨clean_text_nonstring_cases.1 PyVal.pnone rfl rfl,
   clean_text_nonstring_cases.1 (.pint 0) rfl (by decide),
   clean_text_nonstring_cases.1 (.pbool false) rfl rfl,
   clean_text_nonstring_cases.1 (.plist []) rfl rfl,
   clean_text_nonstring_cases.2.1 (.pbool true) rfl rfl,
   clean_text_nonstring_cases.2.2⟩

/-! ## Lemmas about the similarity scorer -/

lemma l2norm_nonneg (V : Finset (List Char)) (u : List Char → ℝ) :
    0 ≤ l2norm V u := Real.sqrt_nonneg _

lemma l2norm_sq (V : Finset (List Char)) (u : List Char → ℝ) :
    (l2norm V u) ^ 2 = ∑ t in V, (u t) ^ 2 :=
  Real.sq_sqrt (Finset.sum_nonneg fun t _ => sq_nonneg (u t))

lemma normalizeRow_nonneg {V : Finset (List Char)} {u : List Char → ℝ}
    (hu : ∀ t, 0 ≤ u t) (t : List Char) : 0 ≤ normalizeRow V u t :=
  div_nonneg (hu t) (l2norm_nonneg V u)

/-- The dot product of two normalized rows as a quotient of raw dot
product by the product of the norms. -/
lemma dotProd_normalize_eq (V : Finset (List Char)) (u v : List Char → ℝ) :
    dotProd V (normalizeRow V u) (normalizeRow V v) =
      (∑ t in V, u t * v t) / (l2norm V u * l2norm V v) := by
  rw [dotProd, Finset.sum_div]
  apply Finset.sum_congr rfl
  intro t _
  show (u t / l2norm V u) * (v t / l2norm V v) =
    (u t * v t) / (l2norm V u * l2norm V v)
  ring

/-- Cosine similarity never exceeds `1` (Cauchy–Schwarz; a zero norm makes
the quotient zero). -/
lemma cosineSimilarity_le_one (V : Finset (List Char)) (u v : List Char → ℝ) :
    cosineSimilarity V u v ≤ 1 := by
  rw [cosineSimilarity, dotProd_normalize_eq]
  by_cases hab : l2norm V u * l2norm V v = 0
  · rw [hab, div_zero]
    exact zero_le_one
  · have h0 : 0 ≤ l2norm V u * l2norm V v :=
      mul_nonneg (l2norm_nonneg V u) (l2norm_nonneg V v)
    have hpos : 0 < l2norm V u * l2norm V v := lt_of_le_of_ne h0 (Ne.symm hab)
    rw [div_le_one hpos]
    exact Real.sum_mul_le_sqrt_mul_sqrt V u v

/-- Cosine similarity of vectors with non-negative coordinates is
non-negative. -/
lemma cosineSimilarity_nonneg {V : Finset (List Char)} {u v : List Char → ℝ}
    (hu : ∀ t, 0 ≤ u t) (hv : ∀ t, 0 ≤ v t) : 0 ≤ cosineSimilarity V u v := by
  rw [cosineSimilarity, dotProd]
  exact Finset.sum_nonneg fun t _ =>
    mul_nonneg (normalizeRow_nonneg hu t) (normalizeRow_nonneg hv t)

/-- A row with non-zero norm normalizes to a unit vector. -/
lemma l2norm_normalizeRow {V : Finset (List Char)} {u : List Char → ℝ}
    (h : l2norm V u ≠ 0) : l2norm V (normalizeRow V u) = 1 := by
  rw [l2norm]
  have hsum : ∑ t in V, (normalizeRow V u t) ^ 2 = 1 := by
    have heach : ∀ t ∈ V, (normalizeRow V u t) ^ 2 = (u t) ^ 2 / (l2norm V u) ^ 2 := by
      intro t _
      show (u t / l2norm V u) ^ 2 = (u t) ^ 2 / (l2norm V u) ^ 2
      ring
    rw [Finset.sum_congr rfl heach, ← Finset.sum_div, ← l2norm_sq]
    exact div_self (pow_ne_zero 2 h)
  rw [hsum]
  exact Real.sqrt_one

/-- Cosine similarity of a non-zero vector with itself is exactly `1`. -/
lemma cosineSimilarity_self {V : Finset (List Char)} {u : List Char → ℝ}
    (h : l2norm V u ≠ 0) : cosineSimilarity V u u = 1 := by
  rw [cosineSimilarity, dotProd_normalize_eq]
  have hdot : ∑ t in V, u t * u t = (l2norm V u) ^ 2 := by
    rw [l2norm_sq]
    exact Finset.sum_congr rfl fun t _ => (sq (u t)).symm ▸ by ring
  rw [hdot]
  have : (l2norm V u) ^ 2 = l2norm V u * l2norm V u := sq (l2norm V u)
  rw [this]
  exact div_self (mul_ne_zero h h)

/-! ### TF-IDF weight facts -/

lemma dfCount_le_length (docs : List (List Char)) (t : List Char) :
    dfCount docs t ≤ docs.length :=
  List.length_filter_le _ docs

/-- The smoothed IDF weight is at least `1`, in particular positive:
`df ≤ n` makes the log argument at least `1`. -/
lemma idf_pos (docs : List (List Char)) (t : List Char) : 0 < idf docs t := by
  rw [idf]
  have h1 : (0:ℝ) < 1 + (dfCount docs t : ℝ) := by positivity
  have h2 : (1 + (dfCount docs t : ℝ)) ≤ 1 + (docs.length : ℝ) := by
    have hle : (dfCount docs t : ℝ) ≤ (docs.length : ℝ) := by
      exact_mod_cast dfCount_le_length docs t
    linarith
  have hlog : 0 ≤ Real.log ((1 + (docs.length : ℝ)) / (1 + (dfCount docs t : ℝ))) :=
    Real.log_nonneg ((one_le_div h1).mpr h2)
  linarith

lemma tfidf_nonneg (docs : List (List Char)) (d t : List Char) :
    0 ≤ tfidf docs d t :=
  mul_nonneg (Nat.cast_nonneg _) (le_of_lt (idf_pos docs t))

lemma tfidf_pos {docs : List (List Char)} {d t : List Char}
    (h : t ∈ sklearnTokens d) : 0 < tfidf docs d t := by
  rw [tfidf]
  have hc : 0 < (sklearnTokens d).count t := List.count_pos_iff.mpr h
  have hc' : (0:ℝ) < ((sklearnTokens d).count t : ℝ) := by exact_mod_cast hc
  exact mul_pos hc' (idf_pos docs t)

lemma tfidf_eq_zero {docs : List (List Char)} {d t : List Char}
    (h : t ∉ sklearnTokens d) : tfidf docs d t = 0 := by
  rw [tfidf, List.count_eq_zero.mpr h]
  simp

lemma mem_vocabulary {docs : List (List Char)} {t : List Char} :
    t ∈ vocabulary docs ↔ ∃ d ∈ docs, t ∈ sklearnTokens d := by
  rw [vocabulary, List.mem_toFinset, List.mem_flatMap]

/-- A document that contributes at least one token has a TF-IDF row of
positive norm. -/
lemma l2norm_tfidf_pos {docs : List (List Char)} {d t0 : List Char}
    (hd : d ∈ docs) (ht : t0 ∈ sklearnTokens d) :
    0 < l2norm (vocabulary docs) (tfidf docs d) := by
  rw [l2norm]
  apply Real.sqrt_pos.mpr
  apply Finset.sum_pos'
  · intro t _
    exact sq_nonneg _
  · refine ⟨t0, mem_vocabulary.mpr ⟨d, hd, ht⟩, ?_⟩
    exact pow_pos (tfidf_pos ht) 2

/-- With an empty vocabulary every cosine similarity is the empty sum. -/
lemma cosineSimilarity_empty (u v : List Char → ℝ) :
    cosineSimilarity ∅ u v = 0 := by
  simp [cosineSimilarity, dotProd]

/-- Master characterization: on every path (empty corpus, empty-vocabulary
fallback, normal path) the result of `calculate_similarity` is the
entry-wise cosine similarity against the query row.  On the fallback path
both sides degenerate to zeros of length `len(job_skills)`. -/
lemma calc_eq_map (q : List Char) (c : List (List Char)) :
    calculate_similarity q c =
      c.map (fun d => cosineSimilarity (vocabulary (q :: c))
        (tfidfRow (q :: c) q) (tfidfRow (q :: c) d)) := by
  by_cases hc : c = []
  · subst hc
    simp [calculate_similarity]
  · rw [calculate_similarity, if_neg hc]
    by_cases hV : vocabulary (q :: c) = ∅
    · rw [if_pos hV, hV]
      simp only [cosineSimilarity_empty]
      rw [List.map_const']
    · rw [if_neg hV]

lemma tfidfRow_nonneg (docs : List (List Char)) (d : List Char) :
    ∀ t, 0 ≤ tfidfRow docs d t :=
  fun t => normalizeRow_nonneg (fun r => tfidf_nonneg docs d r) t

/-- If no vectorizer token of the query occurs in a corpus entry, every
summand of the cosine similarity has a zero factor. -/
lemma cosine_eq_zero_of_disjoint (docs : List (List Char)) (q e : List Char)
    (h : ∀ t ∈ sklearnTokens q, t ∉ sklearnTokens e) :
    cosineSimilarity (vocabulary docs) (tfidfRow docs q) (tfidfRow docs e) = 0 := by
  rw [cosineSimilarity, dotProd]
  apply Finset.sum_eq_zero
  intro t _
  by_cases htq : t ∈ sklearnTokens q
  · have hz : tfidf docs e t = 0 := tfidf_eq_zero (h t htq)
    simp [normalizeRow, tfidfRow, hz]
  · have hz : tfidf docs q t = 0 := tfidf_eq_zero htq
    simp [normalizeRow, tfidfRow, hz]

/-- A vectorizer token common to the query and a corpus entry forces a
strictly positive cosine similarity. -/
lemma cosine_pos_of_shared {docs : List (List Char)} {q e t0 : List Char}
    (hq : q ∈ docs) (he : e ∈ docs)
    (h1 : t0 ∈ sklearnTokens q) (h2 : t0 ∈ sklearnTokens e) :
    0 < cosineSimilarity (vocabulary docs) (tfidfRow docs q) (tfidfRow docs e) := by
  have haq : 0 < l2norm (vocabulary docs) (tfidf docs q) := l2norm_tfidf_pos hq h1
  have hae : 0 < l2norm (vocabulary docs) (tfidf docs e) := l2norm_tfidf_pos he h2
  have hnq : l2norm (vocabulary docs) (tfidfRow docs q) = 1 :=
    l2norm_normalizeRow (ne_of_gt haq)
  have hne : l2norm (vocabulary docs) (tfidfRow docs e) = 1 :=
    l2norm_normalizeRow (ne_of_gt hae)
  rw [cosineSimilarity, dotProd]
  apply Finset.sum_pos'
  · intro t _
    exact mul_nonneg (normalizeRow_nonneg (tfidfRow_nonneg docs q) t)
      (normalizeRow_nonneg (tfidfRow_nonneg docs e) t)
  · refine ⟨t0, mem_vocabulary.mpr ⟨q, hq, h1⟩, ?_⟩
    have e1 : normalizeRow (vocabulary docs) (tfidfRow docs q) t0 = tfidfRow docs q t0 := by
      show tfidfRow docs q t0 / l2norm (vocabulary docs) (tfidfRow docs q) = _
      rw [hnq, div_one]
    have e2 : normalizeRow (vocabulary docs) (tfidfRow docs e) t0 = tfidfRow docs e t0 := by
      show tfidfRow docs e t0 / l2norm (vocabulary docs) (tfidfRow docs e) = _
      rw [hne, div_one]
    show 0 < normalizeRow (vocabulary docs) (tfidfRow docs q) t0 *
      normalizeRow (vocabulary docs) (tfidfRow docs e) t0
    rw [e1, e2]
    have p1 : 0 < tfidfRow docs q t0 := by
      show 0 < tfidf docs q t0 / l2norm (vocabulary docs) (tfidf docs q)
      exact div_pos (tfidf_pos h1) haq
    have p2 : 0 < tfidfRow docs e t0 := by
      show 0 < tfidf docs e t0 / l2norm (vocabulary docs) (tfidf docs e)
      exact div_pos (tfidf_pos h2) hae
    exact mul_pos p1 p2

/-- The empty-vocabulary fallback returns `len(job_skills)` zeros. -/
lemma calc_fallback (q : List Char) (c : List (List Char))
    (h : vocabulary (q :: c) = ∅) :
    calculate_similarity q c = List.replicate c.length 0 := by
  by_cases hc : c = []
  · subst hc
    simp [calculate_similarity]
  · rw [calculate_similarity, if_neg hc, if_pos h]

/-! ## Claims about the similarity scorer -/

/-- **C9.** For every query — including the empty string — an empty corpus
yields the empty score vector immediately, with no exception (the function
is total). -/
theorem calculate_similarity_empty_corpus (q : List Char) :
    calculate_similarity q [] = [] := by
  simp [calculate_similarity]

/-- **C1.** The score vector has exactly one entry per corpus entry, in
corpus order: its length is `len(corpus)`, and the `i`-th entry is the
cosine similarity of the query row against the `i`-th corpus row (on the
fallback path both sides are the zero entries). -/
theorem calculate_similarity_length_order (q : List Char) (js : List (List Char)) :
    (calculate_similarity q js).length = js.length ∧
    ∀ i : ℕ, (calculate_similarity q js)[i]? =
      (js[i]?).map (fun d => cosineSimilarity (vocabulary (q :: js))
        (tfidfRow (q :: js) q) (tfidfRow (q :: js) d)) := by
  rw [calc_eq_map]
  exact ⟨List.length_map _ _, fun i => List.getElem?_map _ _ _⟩

/-- **C2.** Every returned score lies in the closed interval `[0, 1]`:
cosine similarity of non-negative rows is non-negative and bounded by one
(Cauchy–Schwarz), and the fallback zeros trivially lie in the interval. -/
theorem calculate_similarity_unit_interval (q : List Char) (c : List (List Char)) :
    ∀ x ∈ calculate_similarity q c, 0 ≤ x ∧ x ≤ 1 := by
  rw [calc_eq_map]
  intro x hx
  rcases List.mem_map.mp hx with ⟨d, _, rfl⟩
  exact ⟨cosineSimilarity_nonneg (tfidfRow_nonneg _ _) (tfidfRow_nonneg _ _),
    cosineSimilarity_le_one _ _ _⟩

theorem calculate_similarity_unit_interval_witness :
    (0:ℝ) ∈ calculate_similarity [] [[]] ∧ (0 ≤ (0:ℝ) ∧ (0:ℝ) ≤ 1) := by
  have hm : (0:ℝ) ∈ calculate_similarity [] [[]] := by
    rw [calc_fallback [] [[]] (by decide)]
    simp
  exact ⟨hm, calculate_similarity_unit_interval [] [[]] 0 hm⟩

/-- **C8.** If vectorization fails (the modelled failure mode: the fitted
vocabulary is empty, e.g. when the query and all corpus entries are empty
strings), no exception reaches the caller; the result is all zeros with
length `len(corpus)`. -/
theorem calculate_similarity_fallback_zeros (q : List Char) (c : List (List Char))
    (h : vocabulary (q :: c) = ∅) :
    calculate_similarity q c = List.replicate c.length 0 :=
  calc_fallback q c h

theorem calculate_similarity_fallback_zeros_witness :
    calculate_similarity [] [[]] = List.replicate 1 0 :=
  calculate_similarity_fallback_zeros [] [[]] (by decide)

/-- **C5, counterexample.** The claim states that a corpus entry identical
to the query always scores `1.0`.  For the empty query against the corpus
`["", "xx"]`, entry `0` is identical to the query yet scores `0`, because
the query contributes no vectorizer token. -/
theorem identical_entry_zero_score :
    (calculate_similarity ([] : List Char) [[], ("xx").data])[0]? = some 0 ∧
      ((0:ℝ) ≠ 1) := by
  constructor
  · rw [calc_eq_map, List.getElem?_map]
    have h0 : (([[], ("xx").data] : List (List Char)))[0]? = some [] := rfl
    rw [h0]
    exact congrArg some (cosine_eq_zero_of_disjoint _ [] []
      (fun t ht => absurd ht (List.not_mem_nil t)))
  · norm_num

/-- **C5, amended.** A corpus entry identical to the query scores exactly
`1` provided the query contains at least one vectorizer token (a run of two
or more word characters — shorter queries vectorize to the zero row); an
entry sharing no vectorizer token with the query scores exactly `0`; and in
particular `score("python sql", ["python sql", "java c++", ""])` returns
`[1, 0, 0]`. -/
theorem score_matching_rules :
    (∀ (q : List Char) (js : List (List Char)) (i : ℕ),
        js[i]? = some q → sklearnTokens q ≠ [] →
        (calculate_similarity q js)[i]? = some 1) ∧
    (∀ (q : List Char) (js : List (List Char)) (i : ℕ) (e : List Char),
        js[i]? = some e → (∀ t ∈ sklearnTokens q, t ∉ sklearnTokens e) →
        (calculate_similarity q js)[i]? = some 0) ∧
    calculate_similarity ("python sql").data
        [("python sql").data, ("java c++").data, ("").data] = [1, 0, 0] := by
  have hself : ∀ (q : List Char) (c : List (List Char)),
      sklearnTokens q ≠ [] →
      cosineSimilarity (vocabulary (q :: c)) (tfidfRow (q :: c) q)
        (tfidfRow (q :: c) q) = 1 := by
    intro q c hq
    obtain ⟨t0, ht0⟩ := List.exists_mem_of_ne_nil _ hq
    apply cosineSimilarity_self
    rw [tfidfRow]
    rw [l2norm_normalizeRow (ne_of_gt (l2norm_tfidf_pos (List.mem_cons_self _ _) ht0))]
    norm_num
  refine ⟨?_, ?_, ?_⟩
  · intro q c i hi hq
    rw [calc_eq_map, List.getElem?_map, hi]
    exact congrArg some (hself q c hq)
  · intro q c i e hi hdisj
    rw [calc_eq_map, List.getElem?_map, hi]
    exact congrArg some (cosine_eq_zero_of_disjoint _ q e hdisj)
  · rw [calc_eq_map]
    simp only [List.map_cons, List.map_nil]
    rw [hself ("python sql").data
        [("python sql").data, ("java c++").data, ("").data] (by decide)]
    rw [cosine_eq_zero_of_disjoint _ ("python sql").data ("java c++").data (by decide)]
    rw [cosine_eq_zero_of_disjoint _ ("python sql").data ("").data (by decide)]

theorem score_matching_rules_witness :
    (calculate_similarity ("ab").data [("ab").data])[0]? = some 1 ∧
      (calculate_similarity ("ab").data [("cd").data])[0]? = some 0 :=
  ⟨score_matching_rules.1 ("ab").data [("ab").data] 0 rfl (by decide),
   score_matching_rules.2.1 ("ab").data [("cd").data] 0 ("cd").data rfl (by decide)⟩

/-- **C6, counterexample.** The claim states that any token shared by the
query and a corpus entry yields a strictly positive score.  The query `"c"`
and the entry `"c"` share the token `"c"` (in the glossary sense: a maximal
run of lowercase letters), yet the score is `0`: the vectorizer's token
pattern requires at least two word characters, so the vocabulary is empty
and the fallback returns zeros. -/
theorem shared_single_char_token_zero :
    (∃ t, t ∈ specTokens (("c").data) ∧ t ∈ specTokens (("c").data)) ∧
      calculate_similarity ("c").data [("c").data] = [0] := by
  refine ⟨⟨("c").data, by decide, by decide⟩, ?_⟩
  rw [calc_fallback _ _ (by decide)]
  rfl

/-- **C6, amended.** If the query and a corpus entry share a vectorizer
token — a maximal run of at least two word characters, the only tokens the
default `token_pattern` extracts — then that entry's score is strictly
positive. -/
theorem shared_vectorizer_token_pos (q : List Char) (js : List (List Char)) (i : ℕ)
    (e t : List Char) (hi : js[i]? = some e)
    (h1 : t ∈ sklearnTokens q) (h2 : t ∈ sklearnTokens e) :
    ∃ s, (calculate_similarity q js)[i]? = some s ∧ 0 < s := by
  rw [calc_eq_map, List.getElem?_map, hi]
  refine ⟨_, rfl, ?_⟩
  exact cosine_pos_of_shared (List.mem_cons_self _ _)
    (List.mem_cons_of_mem _ (List.getElem?_mem hi)) h1 h2

theorem shared_vectorizer_token_pos_witness :
    ∃ s, (calculate_similarity ("ab").data [("ab").data])[0]? = some s ∧ 0 < s :=
  shared_vectorizer_token_pos ("ab").data [("ab").data] 0 ("ab").data ("ab").data
    rfl (by decide) (by decide)

end ResumeAnalyzer
